import Mathlib

/-!
# Verification of the furinote word-tracking and analysis pipeline

Shallow embedding of the core services of the repository:

* `createOrUpdateWord`, `getWordByText`, `deleteWord`, `getAllWords`,
  `markEntryAsAnalyzed`, `markEntryAsUnanalyzed`, `getUnanalyzedEntries`,
  `getAllEntries`, `updateEntry` from `storage.service.ts`;
* `extractContentWords`, `katakanaToHiragana` from the MeCab service;
* `extractAndTrackWords` from the word-extractor service;
* `analyzeEntry`, `analyzeUnanalyzedEntries`, `forceReanalyzeAll` and its
  private `clearAllWords` from the analysis service.

Modelling conventions:

* Timestamps (`Date` objects) are `Nat`.
* The two IndexedDB object stores are modelled as `WordStore` and
  `EntryStore`, each holding its records as a list in store order.
  Key-collision is impossible in IndexedDB (`keyPath: 'id'`); id-uniqueness
  appears as a `Nodup` hypothesis where a proof needs it.
* `Math.random().toString(36)` id generation is modelled by a fresh-id
  counter `nextId` in the word store.
* Storage failures (quota, transaction abort) are environmental; they are
  modelled by failure oracles: `failWords` lists the word texts whose
  write rejects, `failPuts` the entry ids whose put rejects.  Fallible
  operations return `Except StorageErr`.
* The external tokenizer (`mecabService.analyze`) and the furigana reading
  fallback (`furiganaService.convertToHiragana`) are oracles passed as
  function parameters `tok` and `fur`; the oracle is total, so the legacy
  regex fallback branch of `extractAndTrackWords` (reached only when the
  tokenization path throws) is not reachable in the model.
* JS `sort` order for ties is not modelled; both sorted reads use
  `List.insertionSort`, and proofs use only that sorting permutes.
-/

/-- One token of MeCab output (`MecabToken` in `types/index.ts`). -/
structure MecabToken where
  word : String
  pos : String
  pos_detail1 : String
  pos_detail2 : String
  pos_detail3 : String
  conjugation1 : String
  conjugation2 : String
  dictionary_form : String
  reading : String
  pronunciation : String
deriving Repr, DecidableEq

/-- A journal entry record (`JournalEntry` in `types/index.ts`).
Dates are modelled as `Nat` timestamps; the optional cached
`furiganaHtml` field is carried along untouched by the analysis core. -/
structure JournalEntry where
  id : String
  date : Nat
  title : Option String
  content : String
  furiganaHtml : Option String
  wordCount : Nat
  kanjiCount : Nat
  analyzed : Bool
  createdAt : Nat
  updatedAt : Nat
deriving Repr, DecidableEq

/-- A tracked vocabulary record (`TrackedWord` in `types/index.ts`).
The optional dictionary-enrichment payload (`jishoData`) is outside the
analysis core (spec section 1) and is not modelled. -/
structure TrackedWord where
  id : String
  word : String
  reading : String
  frequency : Nat
  firstSeen : Nat
  lastUsed : Nat
  entryIds : List String
deriving Repr, DecidableEq

/-- `Omit<TrackedWord, 'id'>`: the argument of `createOrUpdateWord`. -/
structure WordInput where
  word : String
  reading : String
  frequency : Nat
  firstSeen : Nat
  lastUsed : Nat
  entryIds : List String
deriving Repr, DecidableEq

/-- The `words` IndexedDB object store, with the fresh-id counter and the
write-failure oracle. -/
structure WordStore where
  words : List TrackedWord
  nextId : Nat
  failWords : List String
deriving Repr, DecidableEq

/-- The `entries` IndexedDB object store, with the put-failure oracle. -/
structure EntryStore where
  entries : List JournalEntry
  failPuts : List String
deriving Repr, DecidableEq

/-- Both object stores of `KanjiDesuDB`. -/
structure Store where
  entryStore : EntryStore
  wordStore : WordStore
deriving Repr, DecidableEq

/-- Errors surfaced by the storage and analysis services. -/
inductive StorageErr where
  | entryNotFound (id : String)
  | storageError
deriving Repr, DecidableEq

deriving instance DecidableEq for Except

/-- JS `[...new Set(xs)]`: first occurrences, in order. -/
def dedupAux (seen : List String) : List String → List String
  | [] => []
  | x :: xs => if x ∈ seen then dedupAux seen xs else x :: dedupAux (x :: seen) xs

/-- JS `[...new Set(xs)]`: first occurrences, in order. -/
def dedup (xs : List String) : List String := dedupAux [] xs

/-- `getWordByText`: lookup in the `word` index (first record whose text
matches). -/
def getWordByText (text : String) (ws : WordStore) : Option TrackedWord :=
  ws.words.find? (fun w => w.word == text)

/-- `createOrUpdateWord` of `storage.service.ts` (lines 181-218): look up by
word text; if present, increment `frequency`, refresh `lastUsed`, and union
`entryIds` through a `Set`; if absent, create with a fresh id and
`frequency = 1`, keeping the caller's other fields. -/
def createOrUpdateWord (now : Nat) (w : WordInput) (ws : WordStore) :
    Except StorageErr (WordStore × TrackedWord) :=
  match getWordByText w.word ws with
  | some existingWord =>
    if w.word ∈ ws.failWords then .error .storageError
    else
      let updatedWord : TrackedWord :=
        { existingWord with
          frequency := existingWord.frequency + 1
          lastUsed := now
          entryIds := dedup (existingWord.entryIds ++ w.entryIds) }
      .ok ({ ws with
              words := ws.words.map fun x =>
                if x.id == existingWord.id then updatedWord else x },
           updatedWord)
  | none =>
    if w.word ∈ ws.failWords then .error .storageError
    else
      let newWord : TrackedWord :=
        { id := "w" ++ toString ws.nextId
          word := w.word
          reading := w.reading
          frequency := 1
          firstSeen := w.firstSeen
          lastUsed := w.lastUsed
          entryIds := w.entryIds }
      .ok ({ ws with words := ws.words ++ [newWord], nextId := ws.nextId + 1 },
           newWord)

/-- The vocabulary merge as every in-repo caller performs it
(`word-extractor.service.ts`): `createOrUpdateWord` applied to the record
built from a word text, a reading and one source entry id, with
`firstSeen = lastUsed = now`. -/
def mergeWord (now : Nat) (wordText reading sourceEntryId : String)
    (ws : WordStore) : Except StorageErr (WordStore × TrackedWord) :=
  createOrUpdateWord now
    { word := wordText
      reading := reading
      frequency := 1
      firstSeen := now
      lastUsed := now
      entryIds := [sourceEntryId] } ws

/-- `deleteWord`: remove the record with the given primary key. -/
def deleteWord (id : String) (ws : WordStore) : WordStore :=
  { ws with words := ws.words.filter fun w => !(w.id == id) }

/-- `getAllWords`: all word records, sorted by frequency descending. -/
def getAllWords (ws : WordStore) : List TrackedWord :=
  ws.words.insertionSort fun a b => b.frequency ≤ a.frequency

/-- `getEntry`: primary-key lookup. -/
def getEntry (id : String) (es : EntryStore) : Option JournalEntry :=
  es.entries.find? (fun e => e.id == id)

/-- An IndexedDB `put`: replace the record with the same key, or add the
record when its key is absent. -/
def putEntry (e : JournalEntry) (es : EntryStore) : EntryStore :=
  if es.entries.any (fun x => x.id == e.id) then
    { es with entries := es.entries.map fun x => if x.id == e.id then e else x }
  else
    { es with entries := es.entries ++ [e] }

/-- `updateEntry`: stamp `updatedAt` and `put`; the write rejects for ids
in the failure oracle. -/
def updateEntry (now : Nat) (e : JournalEntry) (es : EntryStore) :
    Except StorageErr EntryStore :=
  if e.id ∈ es.failPuts then .error .storageError
  else .ok (putEntry { e with updatedAt := now } es)

/-- `markEntryAsAnalyzed` (`storage.service.ts` lines 338-346): fetch,
throw when absent, else update with `analyzed: true`. -/
def markEntryAsAnalyzed (now : Nat) (entryId : String) (es : EntryStore) :
    Except StorageErr EntryStore :=
  match getEntry entryId es with
  | none => .error (.entryNotFound entryId)
  | some entry => updateEntry now { entry with analyzed := true, updatedAt := now } es

/-- `markEntryAsUnanalyzed` (`storage.service.ts` lines 348-356). -/
def markEntryAsUnanalyzed (now : Nat) (entryId : String) (es : EntryStore) :
    Except StorageErr EntryStore :=
  match getEntry entryId es with
  | none => .error (.entryNotFound entryId)
  | some entry => updateEntry now { entry with analyzed := false, updatedAt := now } es

/-- `getUnanalyzedEntries`: every record whose `analyzed` flag is false,
in store order. -/
def getUnanalyzedEntries (es : EntryStore) : List JournalEntry :=
  es.entries.filter fun e => !e.analyzed

/-- `getAllEntries`: every entry, sorted by `createdAt` descending. -/
def getAllEntries (es : EntryStore) : List JournalEntry :=
  es.entries.insertionSort fun a b => b.createdAt ≤ a.createdAt

/-- `isHiragana` of the MeCab service: `charCodeAt(0)` of the string lies
in U+3040 - U+309F (an empty string gives `NaN`, failing both bounds). -/
def isHiraganaStr (s : String) : Bool :=
  match s.data with
  | [] => false
  | c :: _ => decide (0x3040 ≤ c.toNat) && decide (c.toNat ≤ 0x309F)

/-- The content part-of-speech whitelist of `extractContentWords`:
noun, verb, adjective, adverb. -/
def contentPOSList : List String := ["名詞", "動詞", "形容詞", "副詞"]

/-- `extractContentWords` of the MeCab service: drop particles (助詞),
auxiliary verbs (助動詞), symbols (記号) and single-character hiragana
surfaces, then keep only the content POS whitelist. -/
def extractContentWords (tokens : List MecabToken) : List MecabToken :=
  tokens.filter fun token =>
    if token.pos == "助詞" then false
    else if token.pos == "助動詞" then false
    else if token.pos == "記号" then false
    else if token.word.length == 1 && isHiraganaStr token.word then false
    else contentPOSList.contains token.pos

/-- `katakanaToHiragana` of the MeCab service: shift every code point in
U+30A1 - U+30F6 down by 0x60 (the per-character `replace` callback,
expressed over the character list). -/
def katakanaToHiragana (katakana : String) : String :=
  String.mk (katakana.data.map fun c =>
    if 0x30A1 ≤ c.toNat && c.toNat ≤ 0x30F6 then Char.ofNat (c.toNat - 0x60) else c)

/-- JS `!content.trim()`: true exactly when every character of the content
is whitespace (trim removes leading and trailing whitespace, so the
trimmed string is empty iff the whole string is whitespace). -/
def isBlank (s : String) : Bool := s.data.all Char.isWhitespace

/-- One iteration of the word loop of `extractAndTrackWords`: compute the
reading (MeCab reading converted to hiragana when the token has one, else
the furigana-service fallback `fur`), merge, and on error log and keep
going with the state unchanged. -/
def trackStep (fur : String → String) (now : Nat) (entryId : String)
    (acc : WordStore × List TrackedWord) (token : MecabToken) :
    WordStore × List TrackedWord :=
  let reading :=
    if token.reading ≠ "" then katakanaToHiragana token.reading
    else fur token.word
  match mergeWord now token.word reading entryId acc.1 with
  | .ok (ws2, tracked) => (ws2, acc.2 ++ [tracked])
  | .error _ => acc

/-- `extractAndTrackWords` of the word-extractor service: empty or
whitespace-only content short-circuits; otherwise tokenize through the
oracle `tok`, filter to content words, and merge each in order, swallowing
per-word errors. -/
def extractAndTrackWords (tok : String → List MecabToken)
    (fur : String → String) (now : Nat) (entryId content : String)
    (ws : WordStore) : WordStore × List TrackedWord :=
  if isBlank content then (ws, [])
  else
    let tokens := tok content
    let contentWords := extractContentWords tokens
    if contentWords.isEmpty then (ws, [])
    else contentWords.foldl (trackStep fur now entryId) (ws, [])

/-- `analyzeEntry` of the analysis service (lines 9-32): fetch the entry
(not-found throws), skip when already analyzed and not forcing, else
extract-and-track, then mark analyzed.  The surrounding try/catch only
logs and rethrows. -/
def analyzeEntry (tok : String → List MecabToken) (fur : String → String)
    (now : Nat) (entryId : String) (force : Bool) (s : Store) :
    Except StorageErr Store :=
  match getEntry entryId s.entryStore with
  | none => .error (.entryNotFound entryId)
  | some entry =>
    if entry.analyzed && !force then .ok s
    else
      let ws2 := (extractAndTrackWords tok fur now entryId entry.content s.wordStore).1
      match markEntryAsAnalyzed now entryId s.entryStore with
      | .error e => .error e
      | .ok es2 => .ok { entryStore := es2, wordStore := ws2 }

/-- The sequential loop of `analyzeUnanalyzedEntries`: one failing entry
aborts the batch (the catch logs and rethrows). -/
def batchGo (tok : String → List MecabToken) (fur : String → String)
    (now : Nat) : List JournalEntry → Store → Except StorageErr Store
  | [], s => .ok s
  | e :: rest, s =>
    match analyzeEntry tok fur now e.id false s with
    | .error err => .error err
    | .ok s2 => batchGo tok fur now rest s2

/-- `analyzeUnanalyzedEntries` of the analysis service (lines 37-52). -/
def analyzeUnanalyzedEntries (tok : String → List MecabToken)
    (fur : String → String) (now : Nat) (s : Store) : Except StorageErr Store :=
  batchGo tok fur now (getUnanalyzedEntries s.entryStore) s

/-- `clearAllWords` of the analysis service (lines 99-112): fetch all
words and delete each by id. -/
def clearAllWords (ws : WordStore) : WordStore :=
  (getAllWords ws).foldl (fun acc w => deleteWord w.id acc) ws

/-- The per-entry loop of `forceReanalyzeAll`: mark unanalyzed, then
analyze with `force = true`; any error aborts (the catch rethrows). -/
def forceGo (tok : String → List MecabToken) (fur : String → String)
    (now : Nat) : List JournalEntry → Store → Except StorageErr Store
  | [], s => .ok s
  | e :: rest, s =>
    match markEntryAsUnanalyzed now e.id s.entryStore with
    | .error err => .error err
    | .ok es2 =>
      match analyzeEntry tok fur now e.id true { s with entryStore := es2 } with
      | .error err => .error err
      | .ok s3 => forceGo tok fur now rest s3

/-- `forceReanalyzeAll` of the analysis service (lines 57-78): wipe the
vocabulary, then mark-unanalyzed and force-analyze every entry. -/
def forceReanalyzeAll (tok : String → List MecabToken)
    (fur : String → String) (now : Nat) (s : Store) : Except StorageErr Store :=
  let s1 : Store := { s with wordStore := clearAllWords s.wordStore }
  forceGo tok fur now (getAllEntries s1.entryStore) s1

/-- Modelled from the spec (testable property "Rebuild reconciliation"):
the vocabulary store "a single fresh pass over all entries would produce"
-- analyzing every entry once, in `getAllEntries` order, against an
initially empty word table. -/
def freshPassWordStore (tok : String → List MecabToken)
    (fur : String → String) (now : Nat) (entries : List JournalEntry)
    (ws : WordStore) : WordStore :=
  entries.foldl
    (fun acc e => (extractAndTrackWords tok fur now e.id e.content acc).1)
    { ws with words := [] }

/-! ## Helper lemmas -/

theorem mem_dedupAux (a : String) :
    ∀ (seen xs : List String), a ∈ dedupAux seen xs ↔ a ∈ xs ∧ a ∉ seen := by
  intro seen xs
  induction xs generalizing seen with
  | nil => simp [dedupAux]
  | cons x xs ih =>
    simp only [dedupAux]
    by_cases hx : x ∈ seen
    · rw [if_pos hx, ih]
      constructor
      · rintro ⟨h1, h2⟩
        exact ⟨List.mem_cons_of_mem _ h1, h2⟩
      · rintro ⟨h1, h2⟩
        rcases List.mem_cons.mp h1 with rfl | h1t
        · exact absurd hx h2
        · exact ⟨h1t, h2⟩
    · rw [if_neg hx]
      constructor
      · intro h
        rcases List.mem_cons.mp h with rfl | ht
        · exact ⟨List.mem_cons_self _ _, hx⟩
        · rcases (ih (x :: seen)).mp ht with ⟨h1, h2⟩
          exact ⟨List.mem_cons_of_mem _ h1,
            fun hs => h2 (List.mem_cons_of_mem _ hs)⟩
      · rintro ⟨h1, h2⟩
        rcases List.mem_cons.mp h1 with rfl | h1t
        · exact List.mem_cons_self _ _
        · by_cases hax : a = x
          · subst hax; exact List.mem_cons_self _ _
          · refine List.mem_cons_of_mem _ ((ih (x :: seen)).mpr ⟨h1t, ?_⟩)
            intro hs
            rcases List.mem_cons.mp hs with h | h
            · exact hax h
            · exact h2 h

theorem mem_dedup (a : String) (xs : List String) : a ∈ dedup xs ↔ a ∈ xs := by
  rw [dedup, mem_dedupAux]; simp

theorem nodup_dedupAux : ∀ (seen xs : List String), (dedupAux seen xs).Nodup := by
  intro seen xs
  induction xs generalizing seen with
  | nil => simp [dedupAux]
  | cons x xs ih =>
    simp only [dedupAux]
    by_cases hx : x ∈ seen
    · rw [if_pos hx]; exact ih seen
    · rw [if_neg hx]
      refine List.nodup_cons.mpr ⟨?_, ih (x :: seen)⟩
      intro hmem
      exact ((mem_dedupAux x (x :: seen) xs).mp hmem).2 (List.mem_cons_self _ _)

theorem nodup_dedup (xs : List String) : (dedup xs).Nodup := nodup_dedupAux [] xs

theorem count_dedup_of_mem {a : String} {xs : List String} (h : a ∈ xs) :
    (dedup xs).count a = 1 :=
  List.count_eq_one_of_mem (nodup_dedup xs) ((mem_dedup a xs).mpr h)

theorem words_find?_replace (l : List TrackedWord) (w0 w1 : TrackedWord)
    (text : String) (h : l.find? (fun w => w.word == text) = some w0)
    (hw : w1.word = w0.word) :
    (l.map fun x => if x.id == w0.id then w1 else x).find?
      (fun w => w.word == text) = some w1 := by
  induction l with
  | nil => simp at h
  | cons x xs ih =>
    rw [List.find?_cons] at h
    by_cases hp : (x.word == text) = true
    · simp only [hp] at h
      injection h with h; subst h
      have hw1 : (w1.word == text) = true := by rw [hw]; exact hp
      simp only [List.map_cons, beq_self_eq_true, if_true, List.find?_cons, hw1]
    · simp only [hp] at h
      by_cases hx : (x.id == w0.id) = true
      · have hwt : (w0.word == text) = true :=
          @List.find?_some TrackedWord (fun w => w.word == text) w0 xs h
        have hw1 : (w1.word == text) = true := by rw [hw]; exact hwt
        simp only [List.map_cons, hx, if_true, List.find?_cons, hw1]
      · simp only [List.map_cons, hx, if_false, Bool.false_eq_true, List.find?_cons, hp]
        exact ih h

theorem words_find?_append_none (l : List TrackedWord) (w : TrackedWord)
    (text : String) (h : l.find? (fun x => x.word == text) = none)
    (hw : (w.word == text) = true) :
    (l ++ [w]).find? (fun x => x.word == text) = some w := by
  induction l with
  | nil => simp only [List.nil_append, List.find?_cons, hw]
  | cons x xs ih =>
    rw [List.find?_cons] at h
    by_cases hp : (x.word == text) = true
    · simp only [hp] at h
      cases h
    · simp only [hp] at h
      rw [List.cons_append, List.find?_cons]
      simp only [hp]
      exact ih h

theorem entries_find?_replace_ne (l : List JournalEntry) (i i2 : String)
    (c : JournalEntry) (hci : c.id = i2) (hne : ¬ i = i2) :
    (l.map fun x => if x.id == i2 then c else x).find? (fun e => e.id == i)
      = l.find? (fun e => e.id == i) := by
  induction l with
  | nil => simp
  | cons x xs ih =>
    by_cases hx : (x.id == i2) = true
    · have hcx : (c.id == i) = false := by
        rw [beq_eq_false_iff_ne, hci]
        intro hc
        exact hne hc.symm
      have hxi : (x.id == i) = false := by
        rw [beq_eq_false_iff_ne, beq_iff_eq.mp hx]
        intro hxe
        exact hne hxe.symm
      simp only [List.map_cons, hx, if_true, List.find?_cons, hcx, hxi]
      exact ih
    · simp only [List.map_cons, hx, if_false, Bool.false_eq_true, List.find?_cons]
      by_cases hxi : (x.id == i) = true
      · simp only [hxi]
      · rw [Bool.not_eq_true] at hxi
        simp only [hxi]
        exact ih

theorem entries_find?_replace_self (l : List JournalEntry) (i : String)
    (c a : JournalEntry) (hci : c.id = i)
    (h : l.find? (fun e => e.id == i) = some a) :
    (l.map fun x => if x.id == i then c else x).find? (fun e => e.id == i)
      = some c := by
  induction l with
  | nil => simp at h
  | cons x xs ih =>
    rw [List.find?_cons] at h
    by_cases hp : (x.id == i) = true
    · simp only [List.map_cons, hp, if_true, List.find?_cons, beq_iff_eq.mpr hci]
    · simp only [hp] at h
      simp only [List.map_cons, hp, if_false, Bool.false_eq_true, List.find?_cons]
      exact ih h

theorem entries_ids_map_replace (l : List JournalEntry) (i : String)
    (c : JournalEntry) (hci : c.id = i) :
    (l.map fun x => if x.id == i then c else x).map (fun e => e.id)
      = l.map (fun e => e.id) := by
  rw [List.map_map]
  apply List.map_congr_left
  intro a _
  by_cases h : (a.id == i) = true
  · simp only [Function.comp_apply, h, if_true]
    rw [hci, beq_iff_eq.mp h]
  · simp only [Function.comp_apply, h, if_false, Bool.false_eq_true]

theorem entries_mem_replace_of_id_eq (l : List JournalEntry) (i : String)
    (c y : JournalEntry) (hci : c.id = i)
    (hy : y ∈ l.map fun x => if x.id == i then c else x) (hid : y.id = i) :
    y = c := by
  obtain ⟨x, hx, hxy⟩ := List.mem_map.mp hy
  by_cases h : (x.id == i) = true
  · rw [if_pos h] at hxy
    exact hxy.symm
  · rw [if_neg h] at hxy
    subst hxy
    exact absurd (beq_iff_eq.mpr hid) h

theorem entries_mem_replace_of_id_ne (l : List JournalEntry) (i : String)
    (c y : JournalEntry) (hci : c.id = i)
    (hy : y ∈ l.map fun x => if x.id == i then c else x)
    (hid : ¬ y.id = i) : y ∈ l := by
  obtain ⟨x, hx, hxy⟩ := List.mem_map.mp hy
  by_cases h : (x.id == i) = true
  · rw [if_pos h] at hxy
    subst hxy
    exact absurd hci hid
  · rw [if_neg h] at hxy
    subst hxy
    exact hx

/-- The record that the create branch of `createOrUpdateWord` stores when
invoked through `mergeWord`. -/
def newMergedWord (now : Nat) (text reading eid : String) (n : Nat) : TrackedWord :=
  { id := "w" ++ toString n
    word := text
    reading := reading
    frequency := 1
    firstSeen := now
    lastUsed := now
    entryIds := [eid] }

/-- The record that the update branch of `createOrUpdateWord` stores when
invoked through `mergeWord` on existing record `w0`. -/
def updatedMergedWord (now : Nat) (eid : String) (w0 : TrackedWord) : TrackedWord :=
  { w0 with
    frequency := w0.frequency + 1
    lastUsed := now
    entryIds := dedup (w0.entryIds ++ [eid]) }

theorem mergeWord_create (now : Nat) (text r eid : String) (ws : WordStore)
    (h : getWordByText text ws = none) (hf : text ∉ ws.failWords) :
    mergeWord now text r eid ws =
      .ok ({ ws with
              words := ws.words ++ [newMergedWord now text r eid ws.nextId]
              nextId := ws.nextId + 1 },
           newMergedWord now text r eid ws.nextId) := by
  simp only [mergeWord, createOrUpdateWord, h, newMergedWord]
  rw [if_neg hf]

theorem mergeWord_update (now : Nat) (text r eid : String) (ws : WordStore)
    (w0 : TrackedWord) (h : getWordByText text ws = some w0)
    (hf : text ∉ ws.failWords) :
    mergeWord now text r eid ws =
      .ok ({ ws with
              words := ws.words.map fun x =>
                if x.id == w0.id then updatedMergedWord now eid w0 else x },
           updatedMergedWord now eid w0) := by
  simp only [mergeWord, createOrUpdateWord, h, updatedMergedWord]
  rw [if_neg hf]

/-! ## C1: upsert semantics of the vocabulary merge -/

/-- C1: an upsert of a word absent from the store creates a record with
frequency 1, firstSeen = lastUsed = now and entryIds = [sourceEntryId];
an upsert of a present word increments its frequency by exactly 1, sets
lastUsed = now and takes the deduplicated union of the old entryIds with
the source entry id; and on a fresh store, merging the same word text
from entry A then entry B yields one record with entryIds = [A, B] and
frequency = 2. -/
theorem mergeWord_upsert_correct :
    (∀ (now : Nat) (text r eid : String) (ws : WordStore),
      getWordByText text ws = none → text ∉ ws.failWords →
      ∃ w, mergeWord now text r eid ws =
          .ok ({ ws with words := ws.words ++ [w], nextId := ws.nextId + 1 }, w)
        ∧ w.word = text ∧ w.frequency = 1 ∧ w.firstSeen = now ∧ w.lastUsed = now
        ∧ w.entryIds = [eid])
    ∧ (∀ (now : Nat) (text r eid : String) (ws : WordStore) (w0 : TrackedWord),
      getWordByText text ws = some w0 → text ∉ ws.failWords →
      ∃ w, mergeWord now text r eid ws =
          .ok ({ ws with
                  words := ws.words.map fun x => if x.id == w0.id then w else x }, w)
        ∧ w.word = w0.word ∧ w.frequency = w0.frequency + 1 ∧ w.lastUsed = now
        ∧ w.firstSeen = w0.firstSeen ∧ w.entryIds = dedup (w0.entryIds ++ [eid]))
    ∧ (∀ (n1 n2 : Nat) (r1 r2 A B : String) (ws : WordStore),
      ws.words = [] → "猫" ∉ ws.failWords → A ≠ B →
      ∃ ws1 w1 ws2 w2,
        mergeWord n1 "猫" r1 A ws = .ok (ws1, w1)
        ∧ mergeWord n2 "猫" r2 B ws1 = .ok (ws2, w2)
        ∧ w2.entryIds = [A, B] ∧ w2.frequency = 2
        ∧ getWordByText "猫" ws2 = some w2) := by
  refine ⟨?_, ?_, ?_⟩
  · intro now text r eid ws h hf
    exact ⟨newMergedWord now text r eid ws.nextId,
      mergeWord_create now text r eid ws h hf, rfl, rfl, rfl, rfl, rfl⟩
  · intro now text r eid ws w0 h hf
    exact ⟨updatedMergedWord now eid w0,
      mergeWord_update now text r eid ws w0 h hf, rfl, rfl, rfl, rfl, rfl⟩
  · intro n1 n2 r1 r2 A B ws hws hf hAB
    have h0 : getWordByText "猫" ws = none := by
      simp [getWordByText, hws]
    have hstep1 := mergeWord_create n1 "猫" r1 A ws h0 hf
    set w1 := newMergedWord n1 "猫" r1 A ws.nextId with hw1
    set ws1 : WordStore :=
      { ws with words := ws.words ++ [w1], nextId := ws.nextId + 1 } with hws1
    have hfind1 : getWordByText "猫" ws1 = some w1 := by
      simp only [getWordByText, hws1, hws, List.nil_append]
      simp [List.find?_cons, hw1, newMergedWord]
    have hf1 : "猫" ∉ ws1.failWords := hf
    have hstep2 := mergeWord_update n2 "猫" r2 B ws1 w1 hfind1 hf1
    refine ⟨ws1, w1, _, updatedMergedWord n2 B w1, hstep1, hstep2, ?_, ?_, ?_⟩
    · show dedup (w1.entryIds ++ [B]) = [A, B]
      have : w1.entryIds = [A] := rfl
      rw [this]
      simp only [List.cons_append, List.nil_append, dedup, dedupAux]
      simp [hAB.symm, List.mem_singleton]
    · rfl
    · exact words_find?_replace _ w1 (updatedMergedWord n2 B w1) "猫" hfind1 rfl

/-- A fresh, empty word store with no write failures. -/
def freshWordStore : WordStore := { words := [], nextId := 0, failWords := [] }

/-- Witness for C1: the fresh-store scenario at concrete inputs. -/
theorem mergeWord_upsert_correct_witness :
    ∃ ws1 w1 ws2 w2,
      mergeWord 1 "猫" "ねこ" "A" freshWordStore = .ok (ws1, w1)
      ∧ mergeWord 2 "猫" "ねこ" "B" ws1 = .ok (ws2, w2)
      ∧ w2.entryIds = ["A", "B"] ∧ w2.frequency = 2
      ∧ getWordByText "猫" ws2 = some w2 :=
  mergeWord_upsert_correct.2.2 1 2 "ねこ" "ねこ" "A" "B" freshWordStore rfl
    (by decide) (by decide)

/-! ## C6: at-least-once consistency of the merge -/

/-- C6: merging the same word text, reading and source entry id twice
leaves the stored record with that entry id exactly once in `entryIds`
while its frequency has been incremented once per call. -/
theorem mergeWord_twice_same_args (now1 now2 : Nat) (text r eid : String)
    (ws : WordStore) (hf : text ∉ ws.failWords) :
    ∃ ws1 w1 ws2 w2,
      mergeWord now1 text r eid ws = .ok (ws1, w1)
      ∧ mergeWord now2 text r eid ws1 = .ok (ws2, w2)
      ∧ getWordByText text ws2 = some w2
      ∧ w2.entryIds.count eid = 1
      ∧ w2.frequency = (match getWordByText text ws with
          | some w0 => w0.frequency
          | none => 0) + 2 := by
  cases h : getWordByText text ws with
  | none =>
    have hstep1 := mergeWord_create now1 text r eid ws h hf
    have hw1word : ((newMergedWord now1 text r eid ws.nextId).word == text) = true := by
      simp [newMergedWord]
    have hfind1 :
        getWordByText text
          { ws with
            words := ws.words ++ [newMergedWord now1 text r eid ws.nextId]
            nextId := ws.nextId + 1 }
        = some (newMergedWord now1 text r eid ws.nextId) :=
      words_find?_append_none ws.words _ text h hw1word
    have hstep2 := mergeWord_update now2 text r eid _ _ hfind1 hf
    refine ⟨_, _, _, _, hstep1, hstep2, ?_, ?_, ?_⟩
    · exact words_find?_replace _ _ _ text hfind1 rfl
    · show (dedup ((newMergedWord now1 text r eid ws.nextId).entryIds ++ [eid])).count eid = 1
      exact count_dedup_of_mem (by simp [newMergedWord])
    · rfl
  | some w0 =>
    have hstep1 := mergeWord_update now1 text r eid ws w0 h hf
    have hfind1 :
        getWordByText text
          { ws with
            words := ws.words.map fun x =>
              if x.id == w0.id then updatedMergedWord now1 eid w0 else x }
        = some (updatedMergedWord now1 eid w0) :=
      words_find?_replace ws.words w0 _ text h rfl
    have hstep2 := mergeWord_update now2 text r eid _ _ hfind1 hf
    refine ⟨_, _, _, _, hstep1, hstep2, ?_, ?_, ?_⟩
    · exact words_find?_replace _ _ _ text hfind1 rfl
    · show (dedup ((updatedMergedWord now1 eid w0).entryIds ++ [eid])).count eid = 1
      exact count_dedup_of_mem (by simp)
    · rfl

/-- Witness for C6 at concrete inputs. -/
theorem mergeWord_twice_same_args_witness :
    ∃ ws1 w1 ws2 w2,
      mergeWord 3 "犬" "いぬ" "E" freshWordStore = .ok (ws1, w1)
      ∧ mergeWord 4 "犬" "いぬ" "E" ws1 = .ok (ws2, w2)
      ∧ getWordByText "犬" ws2 = some w2
      ∧ w2.entryIds.count "E" = 1
      ∧ w2.frequency = (match getWordByText "犬" freshWordStore with
          | some w0 => w0.frequency
          | none => 0) + 2 :=
  mergeWord_twice_same_args 3 4 "犬" "いぬ" "E" freshWordStore (by decide)

/-! ## C9: invariants of the word store -/

/-- A `createOrUpdateWord` input whose `entryIds` holds a duplicate. -/
def dupEntryIdsInput : WordInput :=
  { word := "猫", reading := "ねこ", frequency := 1, firstSeen := 0,
    lastUsed := 0, entryIds := ["A", "A"] }

/-- C9 counterexample: the create branch of `createOrUpdateWord` stores the
caller-supplied `entryIds` as-is, so a single call on the empty store with
input `entryIds = ["A", "A"]` leaves a stored TrackedWord whose entryIds
list has a duplicate, refuting the claimed invariant for arbitrary call
sequences. -/
theorem createOrUpdateWord_dup_entryIds_cex :
    (createOrUpdateWord 0 dupEntryIdsInput freshWordStore).toOption.map
      (fun p => p.1.words.map TrackedWord.entryIds) = some [["A", "A"]]
    ∧ ¬ (["A", "A"] : List String).Nodup := by
  constructor
  · rfl
  · decide

/-- The net effect on the word store of a sequence of `createOrUpdateWord`
calls (timestamp and input per call); a failed call leaves the store
unchanged. -/
def applyWordCalls (calls : List (Nat × WordInput)) (ws : WordStore) : WordStore :=
  calls.foldl
    (fun acc c =>
      match createOrUpdateWord c.1 c.2 acc with
      | .ok (ws2, _) => ws2
      | .error _ => acc) ws

/-- The C9 invariant: every stored word has frequency at least 1 and an
entryIds list without duplicates. -/
def wordStoreInvariant (ws : WordStore) : Prop :=
  ∀ w ∈ ws.words, 1 ≤ w.frequency ∧ w.entryIds.Nodup

theorem createOrUpdateWord_preserves_invariant (now : Nat) (w : WordInput)
    (ws ws2 : WordStore) (tw : TrackedWord) (hw : w.entryIds.Nodup)
    (hinv : wordStoreInvariant ws)
    (h : createOrUpdateWord now w ws = .ok (ws2, tw)) :
    wordStoreInvariant ws2 := by
  revert h
  cases hfind : getWordByText w.word ws with
  | some w0 =>
    simp only [createOrUpdateWord, hfind]
    by_cases hfw : w.word ∈ ws.failWords
    · rw [if_pos hfw]; intro h; cases h
    · rw [if_neg hfw]
      intro h
      injection h with h
      injection h with h1 h2
      subst h1
      intro x hx
      obtain ⟨y, hy, hxy⟩ := List.mem_map.mp hx
      by_cases hid : (y.id == w0.id) = true
      · rw [if_pos hid] at hxy
        subst hxy
        exact ⟨Nat.le_add_left 1 w0.frequency, nodup_dedup _⟩
      · rw [if_neg hid] at hxy
        subst hxy
        exact hinv y hy
  | none =>
    simp only [createOrUpdateWord, hfind]
    by_cases hfw : w.word ∈ ws.failWords
    · rw [if_pos hfw]; intro h; cases h
    · rw [if_neg hfw]
      intro h
      injection h with h
      injection h with h1 h2
      subst h1
      intro x hx
      rcases List.mem_append.mp hx with hold | hnew
      · exact hinv x hold
      · rw [List.mem_singleton] at hnew
        subst hnew
        exact ⟨Nat.le_refl 1, hw⟩

theorem applyWordCalls_invariant :
    ∀ (calls : List (Nat × WordInput)) (ws : WordStore),
      wordStoreInvariant ws → (∀ c ∈ calls, c.2.entryIds.Nodup) →
      wordStoreInvariant (applyWordCalls calls ws) := by
  intro calls
  induction calls with
  | nil => intro ws hinv _; exact hinv
  | cons c rest ih =>
    intro ws hinv hcalls
    show wordStoreInvariant (applyWordCalls rest
      (match createOrUpdateWord c.1 c.2 ws with
        | .ok (ws2, _) => ws2
        | .error _ => ws))
    have hrest : ∀ d ∈ rest, d.2.entryIds.Nodup := fun d hd =>
      hcalls d (List.mem_cons_of_mem _ hd)
    cases h : createOrUpdateWord c.1 c.2 ws with
    | ok p =>
      exact ih _ (createOrUpdateWord_preserves_invariant c.1 c.2 ws p.1 p.2
        (hcalls c (List.mem_cons_self _ _)) hinv (by rw [h])) hrest
    | error _ => exact ih _ hinv hrest

/-- C9 (amended): starting from an empty word store, after any sequence of
`createOrUpdateWord` calls whose inputs carry duplicate-free `entryIds`
(every in-repo caller passes a single source entry id), every stored
TrackedWord has frequency at least 1 and duplicate-free entryIds: the
create branch forces frequency to 1, and the update branch rebuilds
entryIds through a set union. -/
theorem createOrUpdateWord_invariant (ws : WordStore) (hws : ws.words = [])
    (calls : List (Nat × WordInput))
    (hcalls : ∀ c ∈ calls, c.2.entryIds.Nodup) :
    wordStoreInvariant (applyWordCalls calls ws) :=
  applyWordCalls_invariant calls ws
    (by intro w hw; rw [hws] at hw; cases hw) hcalls

/-- Witness for C9 (amended) at a concrete call sequence. -/
theorem createOrUpdateWord_invariant_witness :
    wordStoreInvariant (applyWordCalls
      [(0, { word := "猫", reading := "ねこ", frequency := 1, firstSeen := 0,
             lastUsed := 0, entryIds := ["A"] }),
       (1, { word := "猫", reading := "ねこ", frequency := 1, firstSeen := 1,
             lastUsed := 1, entryIds := ["B"] })] freshWordStore) :=
  createOrUpdateWord_invariant freshWordStore rfl _ (by decide)

/-! ## C3: the content-word filter -/

/-- Spec-side predicate for the claim wording "phonetic kana glyph":
a hiragana (U+3040 - U+309F) or katakana (U+30A0 - U+30FF) code point. -/
def isKanaChar (c : Char) : Bool :=
  (decide (0x3040 ≤ c.toNat) && decide (c.toNat ≤ 0x309F))
  || (decide (0x30A0 ≤ c.toNat) && decide (c.toNat ≤ 0x30FF))

/-- A single-katakana surface mistagged as a noun. -/
def singleKatakanaNounToken : MecabToken :=
  { word := "ネ", pos := "名詞", pos_detail1 := "", pos_detail2 := "",
    pos_detail3 := "", conjugation1 := "", conjugation2 := "",
    dictionary_form := "ネ", reading := "ネ", pronunciation := "ネ" }

/-- C3 counterexample: the filter keeps a one-character token whose single
character is a kana glyph (a katakana), because the source's short-surface
rule tests `isHiragana` only; the claim demands exclusion of every
one-character kana surface. -/
theorem extractContentWords_single_kana_cex :
    extractContentWords [singleKatakanaNounToken] = [singleKatakanaNounToken]
    ∧ singleKatakanaNounToken.word.length = 1
    ∧ singleKatakanaNounToken.word.data.all isKanaChar = true := by
  refine ⟨?_, ?_, ?_⟩ <;> decide

theorem extractContentWords_mem (tokens : List MecabToken) (t : MecabToken) :
    t ∈ extractContentWords tokens ↔
      t ∈ tokens ∧ t.pos ∈ contentPOSList
        ∧ ¬(t.word.length = 1 ∧ isHiraganaStr t.word = true) := by
  rw [extractContentWords, List.mem_filter]
  refine and_congr_right fun _ => ?_
  constructor
  · intro hp
    by_cases h1 : (t.pos == "助詞") = true
    · rw [if_pos h1] at hp; cases hp
    rw [if_neg h1] at hp
    by_cases h2 : (t.pos == "助動詞") = true
    · rw [if_pos h2] at hp; cases hp
    rw [if_neg h2] at hp
    by_cases h3 : (t.pos == "記号") = true
    · rw [if_pos h3] at hp; cases hp
    rw [if_neg h3] at hp
    by_cases h4 : (t.word.length == 1 && isHiraganaStr t.word) = true
    · rw [if_pos h4] at hp; cases hp
    rw [if_neg h4] at hp
    refine ⟨by simpa using hp, ?_⟩
    rintro ⟨hlen, hhira⟩
    exact h4 (by simp [hlen, hhira])
  · rintro ⟨hmem, hnot⟩
    have h1 : ¬ (t.pos == "助詞") = true := by
      rw [beq_iff_eq]
      intro he
      rw [he] at hmem
      exact absurd hmem (by decide)
    have h2 : ¬ (t.pos == "助動詞") = true := by
      rw [beq_iff_eq]
      intro he
      rw [he] at hmem
      exact absurd hmem (by decide)
    have h3 : ¬ (t.pos == "記号") = true := by
      rw [beq_iff_eq]
      intro he
      rw [he] at hmem
      exact absurd hmem (by decide)
    have h4 : ¬ (t.word.length == 1 && isHiraganaStr t.word) = true := by
      intro hb
      rw [Bool.and_eq_true] at hb
      exact hnot ⟨by simpa using hb.1, hb.2⟩
    rw [if_neg h1, if_neg h2, if_neg h3, if_neg h4]
    simpa using hmem

/-- C3 (amended): the filter excludes every particle, auxiliary-verb and
symbol token, excludes every token whose surface is exactly one character
when that character is a hiragana glyph (single katakana surfaces are not
excluded by this rule), includes exactly the remaining tokens whose POS is
noun, verb, adjective or adverb, and maps empty input to empty output. -/
theorem extractContentWords_spec :
    (∀ tokens : List MecabToken, ∀ t ∈ extractContentWords tokens,
      t ∈ tokens ∧ t.pos ∈ contentPOSList
        ∧ t.pos ≠ "助詞" ∧ t.pos ≠ "助動詞" ∧ t.pos ≠ "記号"
        ∧ ¬(t.word.length = 1 ∧ isHiraganaStr t.word = true))
    ∧ (∀ (tokens : List MecabToken) (t : MecabToken), t ∈ tokens →
      t.pos ∈ contentPOSList →
      ¬(t.word.length = 1 ∧ isHiraganaStr t.word = true) →
      t ∈ extractContentWords tokens)
    ∧ extractContentWords [] = [] := by
  refine ⟨?_, ?_, rfl⟩
  · intro tokens t ht
    obtain ⟨hmem, hpos, hshort⟩ := (extractContentWords_mem tokens t).mp ht
    refine ⟨hmem, hpos, ?_, ?_, ?_, hshort⟩ <;>
      · intro he
        rw [he] at hpos
        exact absurd hpos (by decide)
  · intro tokens t hmem hpos hshort
    exact (extractContentWords_mem tokens t).mpr ⟨hmem, hpos, hshort⟩

/-- A plain two-character noun token. -/
def nounTokenInu : MecabToken :=
  { word := "小犬", pos := "名詞", pos_detail1 := "", pos_detail2 := "",
    pos_detail3 := "", conjugation1 := "", conjugation2 := "",
    dictionary_form := "小犬", reading := "コイヌ", pronunciation := "コイヌ" }

/-- Witness for C3 (amended): the inclusion direction at a concrete token. -/
theorem extractContentWords_spec_witness :
    nounTokenInu ∈ extractContentWords [nounTokenInu] :=
  extractContentWords_spec.2.1 [nounTokenInu] nounTokenInu (by decide)
    (by decide) (by decide)

theorem markEntryAsAnalyzed_notFound (now : Nat) (id : String) (es : EntryStore)
    (h : getEntry id es = none) :
    markEntryAsAnalyzed now id es = .error (.entryNotFound id) := by
  simp [markEntryAsAnalyzed, h]

theorem markEntryAsUnanalyzed_notFound (now : Nat) (id : String) (es : EntryStore)
    (h : getEntry id es = none) :
    markEntryAsUnanalyzed now id es = .error (.entryNotFound id) := by
  simp [markEntryAsUnanalyzed, h]

theorem getEntry_some_id {id : String} {es : EntryStore} {e : JournalEntry}
    (h : getEntry id es = some e) : e.id = id :=
  beq_iff_eq.mp
    (@List.find?_some JournalEntry (fun x => x.id == id) e es.entries h)

theorem markEntryAsAnalyzed_ok (now : Nat) (id : String) (es : EntryStore)
    (e : JournalEntry) (h : getEntry id es = some e) (hf : id ∉ es.failPuts) :
    markEntryAsAnalyzed now id es =
      .ok { es with entries := es.entries.map fun x =>
              if x.id == id then { e with analyzed := true, updatedAt := now }
              else x } := by
  have heid : e.id = id := getEntry_some_id h
  subst heid
  have hany : es.entries.any (fun x => x.id == e.id) = true :=
    List.any_eq_true.mpr ⟨e, List.mem_of_find?_eq_some h, by simp⟩
  simp [markEntryAsAnalyzed, h, updateEntry, hf, putEntry, hany]

theorem markEntryAsUnanalyzed_ok (now : Nat) (id : String) (es : EntryStore)
    (e : JournalEntry) (h : getEntry id es = some e) (hf : id ∉ es.failPuts) :
    markEntryAsUnanalyzed now id es =
      .ok { es with entries := es.entries.map fun x =>
              if x.id == id then { e with analyzed := false, updatedAt := now }
              else x } := by
  have heid : e.id = id := getEntry_some_id h
  subst heid
  have hany : es.entries.any (fun x => x.id == e.id) = true :=
    List.any_eq_true.mpr ⟨e, List.mem_of_find?_eq_some h, by simp⟩
  simp [markEntryAsUnanalyzed, h, updateEntry, hf, putEntry, hany]

theorem markEntryAsAnalyzed_ok_elim (now : Nat) (id : String)
    (es es2 : EntryStore) (h : markEntryAsAnalyzed now id es = .ok es2) :
    ∃ e, getEntry id es = some e ∧ e.id = id ∧ id ∉ es.failPuts ∧
      es2 = { es with entries := es.entries.map fun x =>
        if x.id == id then { e with analyzed := true, updatedAt := now }
        else x } := by
  cases hget : getEntry id es with
  | none => simp [markEntryAsAnalyzed, hget] at h
  | some e =>
    have heid : e.id = id := getEntry_some_id hget
    subst heid
    by_cases hf : e.id ∈ es.failPuts
    · simp [markEntryAsAnalyzed, hget, updateEntry, hf] at h
    · rw [markEntryAsAnalyzed_ok now e.id es e hget hf] at h
      injection h with h
      exact ⟨e, rfl, rfl, hf, h.symm⟩

theorem markEntryAsUnanalyzed_ok_elim (now : Nat) (id : String)
    (es es2 : EntryStore) (h : markEntryAsUnanalyzed now id es = .ok es2) :
    ∃ e, getEntry id es = some e ∧ e.id = id ∧ id ∉ es.failPuts ∧
      es2 = { es with entries := es.entries.map fun x =>
        if x.id == id then { e with analyzed := false, updatedAt := now }
        else x } := by
  cases hget : getEntry id es with
  | none => simp [markEntryAsUnanalyzed, hget] at h
  | some e =>
    have heid : e.id = id := getEntry_some_id hget
    subst heid
    by_cases hf : e.id ∈ es.failPuts
    · simp [markEntryAsUnanalyzed, hget, updateEntry, hf] at h
    · rw [markEntryAsUnanalyzed_ok now e.id es e hget hf] at h
      injection h with h
      exact ⟨e, rfl, rfl, hf, h.symm⟩

/-! ## C2 and C8: analyzeEntry skip, idempotence, and not-found -/

theorem analyzeEntry_ok_analyzed (tok : String → List MecabToken)
    (fur : String → String) (now : Nat) (id : String) (force : Bool)
    (s s1 : Store) (h : analyzeEntry tok fur now id force s = .ok s1) :
    ∃ e1, getEntry id s1.entryStore = some e1 ∧ e1.analyzed = true := by
  unfold analyzeEntry at h
  cases hget : getEntry id s.entryStore with
  | none => rw [hget] at h; exact Except.noConfusion h
  | some e =>
    simp only [hget] at h
    by_cases hc : (e.analyzed && !force) = true
    · rw [if_pos hc] at h
      injection h with h
      subst h
      rw [Bool.and_eq_true] at hc
      exact ⟨e, hget, hc.1⟩
    · rw [if_neg hc] at h
      cases hm : markEntryAsAnalyzed now id s.entryStore with
      | error err =>
        simp only [hm] at h
        exact Except.noConfusion h
      | ok es2 =>
        simp only [hm] at h
        injection h with h
        subst h
        obtain ⟨a, hga, haid, hfp, hes2⟩ :=
          markEntryAsAnalyzed_ok_elim now id _ _ hm
        subst hes2
        exact ⟨{ a with analyzed := true, updatedAt := now },
          entries_find?_replace_self _ id _ a haid hga, rfl⟩

/-- C2: `analyzeEntry` with `force = false` on an already-analyzed entry
returns immediately with the store unchanged; consequently, whenever a
first `analyzeEntry(id, false)` call succeeds, a second call is a no-op
returning the store of the first call unchanged. -/
theorem analyzeEntry_noop_idempotent :
    (∀ (tok : String → List MecabToken) (fur : String → String) (now : Nat)
        (id : String) (s : Store) (e : JournalEntry),
        getEntry id s.entryStore = some e → e.analyzed = true →
        analyzeEntry tok fur now id false s = .ok s)
    ∧ (∀ (tok : String → List MecabToken) (fur : String → String)
        (now now2 : Nat) (id : String) (s s1 : Store),
        analyzeEntry tok fur now id false s = .ok s1 →
        analyzeEntry tok fur now2 id false s1 = .ok s1) := by
  have skip : ∀ (tok : String → List MecabToken) (fur : String → String)
      (now : Nat) (id : String) (s : Store) (e : JournalEntry),
      getEntry id s.entryStore = some e → e.analyzed = true →
      analyzeEntry tok fur now id false s = .ok s := by
    intro tok fur now id s e hget ha
    simp only [analyzeEntry, hget]
    rw [if_pos (by simp [ha])]
  refine ⟨skip, ?_⟩
  intro tok fur now now2 id s s1 h
  obtain ⟨e1, hg1, ha1⟩ := analyzeEntry_ok_analyzed tok fur now id false s s1 h
  exact skip tok fur now2 id s1 e1 hg1 ha1

/-- An already-analyzed entry for the C2 witness. -/
def analyzedEntryE1 : JournalEntry :=
  { id := "e1", date := 0, title := none, content := "犬", furiganaHtml := none,
    wordCount := 1, kanjiCount := 1, analyzed := true, createdAt := 0,
    updatedAt := 0 }

/-- A store holding only the analyzed entry. -/
def storeAnalyzedE1 : Store :=
  { entryStore := { entries := [analyzedEntryE1], failPuts := [] },
    wordStore := freshWordStore }

/-- Witness for C2: the skip branch at a concrete store. -/
theorem analyzeEntry_noop_idempotent_witness :
    analyzeEntry (fun _ => []) (fun r => r) 3 "e1" false storeAnalyzedE1
      = .ok storeAnalyzedE1 :=
  analyzeEntry_noop_idempotent.1 (fun _ => []) (fun r => r) 3 "e1"
    storeAnalyzedE1 analyzedEntryE1 (by decide) rfl

/-- C8: analysis of a nonexistent entry id fails with the entry-not-found
error; no store is produced, so no extraction or merge takes effect. -/
theorem analyzeEntry_entry_not_found (tok : String → List MecabToken)
    (fur : String → String) (now : Nat) (id : String) (force : Bool)
    (s : Store) (h : getEntry id s.entryStore = none) :
    analyzeEntry tok fur now id force s = .error (.entryNotFound id) := by
  simp [analyzeEntry, h]

/-- A store with no entries at all. -/
def emptyStore : Store :=
  { entryStore := { entries := [], failPuts := [] },
    wordStore := freshWordStore }

/-- Witness for C8 at a concrete store and id. -/
theorem analyzeEntry_entry_not_found_witness :
    analyzeEntry (fun _ => []) (fun r => r) 0 "ghost" true emptyStore
      = .error (.entryNotFound "ghost") :=
  analyzeEntry_entry_not_found (fun _ => []) (fun r => r) 0 "ghost" true
    emptyStore rfl

/-! ## C10: the mark operations touch only the analyzed flag and updatedAt -/

/-- C10: when the entry id is absent both mark operations fail with the
not-found error; when it is present (and the write is not rejected), each
operation maps the stores entries so that the matching entry changes only
in its `analyzed` flag and `updatedAt` timestamp (all other fields are
kept by the record update) and every other entry is untouched. -/
theorem markEntry_frame :
    (∀ (now : Nat) (id : String) (es : EntryStore),
        getEntry id es = none →
        markEntryAsAnalyzed now id es = .error (.entryNotFound id)
        ∧ markEntryAsUnanalyzed now id es = .error (.entryNotFound id))
    ∧ (∀ (now : Nat) (id : String) (es : EntryStore) (e : JournalEntry),
        getEntry id es = some e → id ∉ es.failPuts →
        (es.entries.map (fun x => x.id)).Nodup →
        markEntryAsAnalyzed now id es =
          .ok { es with entries := es.entries.map fun x =>
                  if x.id == id then { x with analyzed := true, updatedAt := now }
                  else x }
        ∧ markEntryAsUnanalyzed now id es =
          .ok { es with entries := es.entries.map fun x =>
                  if x.id == id then { x with analyzed := false, updatedAt := now }
                  else x }) := by
  constructor
  · intro now id es h
    exact ⟨markEntryAsAnalyzed_notFound now id es h,
           markEntryAsUnanalyzed_notFound now id es h⟩
  · intro now id es e hget hf hnd
    have hmem : e ∈ es.entries := List.mem_of_find?_eq_some hget
    have heid : e.id = id := getEntry_some_id hget
    have hmaps : ∀ b : Bool,
        (es.entries.map fun x =>
          if x.id == id then { e with analyzed := b, updatedAt := now } else x)
        = es.entries.map fun x =>
          if x.id == id then { x with analyzed := b, updatedAt := now } else x := by
      intro b
      apply List.map_congr_left
      intro x hx
      by_cases hxi : (x.id == id) = true
      · have hxe : x = e :=
          List.inj_on_of_nodup_map hnd hx hmem
            (by rw [beq_iff_eq.mp hxi, heid])
        subst hxe
        simp
      · simp [hxi]
    constructor
    · rw [markEntryAsAnalyzed_ok now id es e hget hf, hmaps true]
    · rw [markEntryAsUnanalyzed_ok now id es e hget hf, hmaps false]

/-- Witness for C10: both branches at a concrete store. -/
theorem markEntry_frame_witness :
    (markEntryAsAnalyzed 9 "ghost" emptyStore.entryStore
        = .error (.entryNotFound "ghost")
      ∧ markEntryAsUnanalyzed 9 "ghost" emptyStore.entryStore
        = .error (.entryNotFound "ghost"))
    ∧ (markEntryAsAnalyzed 9 "e1" storeAnalyzedE1.entryStore
        = .ok { storeAnalyzedE1.entryStore with
                entries := storeAnalyzedE1.entryStore.entries.map fun x =>
                  if x.id == "e1" then { x with analyzed := true, updatedAt := 9 }
                  else x }
      ∧ markEntryAsUnanalyzed 9 "e1" storeAnalyzedE1.entryStore
        = .ok { storeAnalyzedE1.entryStore with
                entries := storeAnalyzedE1.entryStore.entries.map fun x =>
                  if x.id == "e1" then { x with analyzed := false, updatedAt := 9 }
                  else x }) :=
  ⟨markEntry_frame.1 9 "ghost" emptyStore.entryStore rfl,
   markEntry_frame.2 9 "e1" storeAnalyzedE1.entryStore analyzedEntryE1
     (by decide) (by decide) (by decide)⟩

/-! ## C4: merge failures during analyzeEntry are swallowed, not propagated -/

/-- Noun token for 私. -/
def tokenWatashi : MecabToken :=
  { word := "私", pos := "名詞", pos_detail1 := "", pos_detail2 := "",
    pos_detail3 := "", conjugation1 := "", conjugation2 := "",
    dictionary_form := "私", reading := "ワタシ", pronunciation := "ワタシ" }

/-- Noun token for 犬. -/
def tokenInu : MecabToken :=
  { word := "犬", pos := "名詞", pos_detail1 := "", pos_detail2 := "",
    pos_detail3 := "", conjugation1 := "", conjugation2 := "",
    dictionary_form := "犬", reading := "イヌ", pronunciation := "イヌ" }

/-- Noun token for 猫. -/
def tokenNeko : MecabToken :=
  { word := "猫", pos := "名詞", pos_detail1 := "", pos_detail2 := "",
    pos_detail3 := "", conjugation1 := "", conjugation2 := "",
    dictionary_form := "猫", reading := "ネコ", pronunciation := "ネコ" }

/-- An unanalyzed entry whose content tokenizes to 私, 犬, 猫. -/
def c4Entry : JournalEntry :=
  { id := "e1", date := 0, title := none, content := "私犬猫",
    furiganaHtml := none, wordCount := 3, kanjiCount := 3, analyzed := false,
    createdAt := 0, updatedAt := 0 }

/-- A store where the write of word 猫 is rejected by the storage layer. -/
def c4Store : Store :=
  { entryStore := { entries := [c4Entry], failPuts := [] },
    wordStore := { words := [], nextId := 0, failWords := ["猫"] } }

/-- The tokenizer oracle for the C4 scenario. -/
def c4Tok : String → List MecabToken :=
  fun _ => [tokenWatashi, tokenInu, tokenNeko]

/-- C4 counterexample: with the 猫 merge failing, `analyzeEntry` still
returns success, the entry IS marked analyzed, and the two merges that
succeeded before the failure are kept — the per-word catch in
`extractAndTrackWords` logs and continues, so no storage error reaches
the orchestrator and the claim's "error is propagated and the entry is
left Unanalyzed" is false on the code. -/
theorem analyzeEntry_merge_error_swallowed_cex :
    "猫" ∈ c4Store.wordStore.failWords
    ∧ (analyzeEntry c4Tok (fun r => r) 5 "e1" false c4Store).toOption.map
        (fun s2 => ((getEntry "e1" s2.entryStore).map JournalEntry.analyzed,
                    s2.wordStore.words.map TrackedWord.word))
      = some (some true, ["私", "犬"]) := by
  constructor
  · decide
  · rfl

/-- C4 (amended): a storage failure in a word-merge step is caught inside
the per-word loop of `extractAndTrackWords` and is not propagated;
whenever the entry exists and its own flag write is not rejected,
`analyzeEntry` succeeds and marks the entry analyzed, for every
word-failure oracle; already-committed merges are not rolled back. -/
theorem analyzeEntry_swallows_merge_errors (tok : String → List MecabToken)
    (fur : String → String) (now : Nat) (id : String) (force : Bool)
    (s : Store) (e : JournalEntry) (hget : getEntry id s.entryStore = some e)
    (hput : id ∉ s.entryStore.failPuts) :
    ∃ s2, analyzeEntry tok fur now id force s = .ok s2
      ∧ ∃ e2, getEntry id s2.entryStore = some e2 ∧ e2.analyzed = true := by
  unfold analyzeEntry
  simp only [hget]
  by_cases hc : (e.analyzed && !force) = true
  · rw [if_pos hc]
    rw [Bool.and_eq_true] at hc
    exact ⟨s, rfl, e, hget, hc.1⟩
  · rw [if_neg hc]
    rw [markEntryAsAnalyzed_ok now id s.entryStore e hget hput]
    refine ⟨_, rfl, { e with analyzed := true, updatedAt := now }, ?_, rfl⟩
    have hid2 : ({ e with analyzed := true, updatedAt := now } : JournalEntry).id
        = id := @getEntry_some_id id s.entryStore e hget
    exact entries_find?_replace_self s.entryStore.entries id
      { e with analyzed := true, updatedAt := now } e hid2 hget

/-- Witness for C4 (amended) at the concrete failing-merge store. -/
theorem analyzeEntry_swallows_merge_errors_witness :
    ∃ s2, analyzeEntry c4Tok (fun r => r) 5 "e1" false c4Store = .ok s2
      ∧ ∃ e2, getEntry "e1" s2.entryStore = some e2 ∧ e2.analyzed = true :=
  analyzeEntry_swallows_merge_errors c4Tok (fun r => r) 5 "e1" false c4Store
    c4Entry (by decide) (by decide)

/-! ## C7: a failing entry aborts the unanalyzed batch -/

/-- First unanalyzed entry; its flag write is rejected by the storage
layer. -/
def c7Entry1 : JournalEntry :=
  { id := "e1", date := 0, title := none, content := "犬", furiganaHtml := none,
    wordCount := 1, kanjiCount := 1, analyzed := false, createdAt := 0,
    updatedAt := 0 }

/-- Second unanalyzed entry, perfectly analyzable. -/
def c7Entry2 : JournalEntry := { c7Entry1 with id := "e2" }

/-- Store with two unanalyzed entries where marking `e1` fails. -/
def c7Store : Store :=
  { entryStore := { entries := [c7Entry1, c7Entry2], failPuts := ["e1"] },
    wordStore := freshWordStore }

/-- Tokenizer oracle for the C7 scenario. -/
def c7Tok : String → List MecabToken := fun _ => [tokenInu]

/-- C7 counterexample: with two unanalyzed entries and a storage failure
while analyzing the first, the batch call rethrows the error instead of
continuing: the whole call fails even though the second entry on its own
analyzes fine, so the remaining entry is not processed. -/
theorem analyzeUnanalyzedEntries_abort_cex :
    (getUnanalyzedEntries c7Store.entryStore).map JournalEntry.id = ["e1", "e2"]
    ∧ analyzeUnanalyzedEntries c7Tok (fun r => r) 7 c7Store
        = .error .storageError
    ∧ (analyzeEntry c7Tok (fun r => r) 7 "e2" false c7Store).toOption.isSome
        = true := by
  refine ⟨rfl, rfl, rfl⟩

theorem batchGo_append (tok : String → List MecabToken)
    (fur : String → String) (now : Nat) :
    ∀ (l1 l2 : List JournalEntry) (s : Store),
      batchGo tok fur now (l1 ++ l2) s =
        match batchGo tok fur now l1 s with
        | .ok s2 => batchGo tok fur now l2 s2
        | .error err => .error err := by
  intro l1
  induction l1 with
  | nil =>
    intro l2 s
    simp only [List.nil_append, batchGo]
  | cons e l1 ih =>
    intro l2 s
    rw [List.cons_append]
    simp only [batchGo]
    cases h : analyzeEntry tok fur now e.id false s with
    | error err => simp only [h]
    | ok s2 =>
      simp only [h]
      exact ih l2 s2

/-- C7 (amended): `analyzeUnanalyzedEntries` fetches the entries with
`analyzed == false` and analyzes them sequentially with `force = false`,
but a failure on one entry is logged and rethrown, aborting the batch:
whenever the batch list splits as a successfully processed prefix followed
by an entry whose analysis fails — the failing entry may sit at any
position — the error propagates to the caller and the entries after the
failing one are not processed. -/
theorem analyzeUnanalyzedEntries_aborts (tok : String → List MecabToken)
    (fur : String → String) (now : Nat) (s s1 : Store)
    (pre : List JournalEntry) (e : JournalEntry) (rest : List JournalEntry)
    (err : StorageErr)
    (hlist : getUnanalyzedEntries s.entryStore = pre ++ e :: rest)
    (hpre : batchGo tok fur now pre s = .ok s1)
    (herr : analyzeEntry tok fur now e.id false s1 = .error err) :
    analyzeUnanalyzedEntries tok fur now s = .error err := by
  unfold analyzeUnanalyzedEntries
  rw [hlist, batchGo_append tok fur now pre (e :: rest) s, hpre]
  simp only [batchGo, herr]

/-- Store with two unanalyzed entries where marking the second fails: the
first analyzes fine, the batch aborts on the second. -/
def c7StoreB : Store :=
  { entryStore := { entries := [c7Entry1, c7Entry2], failPuts := ["e2"] },
    wordStore := freshWordStore }

/-- The store after the successful first step of the batch on `c7StoreB`. -/
def c7Mid : Store :=
  match batchGo c7Tok (fun r => r) 7 [c7Entry1] c7StoreB with
  | .ok s => s
  | .error _ => emptyStore

/-- Witness for C7 (amended): a failure at the second position of the
batch, after a successfully processed first entry. -/
theorem analyzeUnanalyzedEntries_aborts_witness :
    analyzeUnanalyzedEntries c7Tok (fun r => r) 7 c7StoreB
      = .error .storageError :=
  analyzeUnanalyzedEntries_aborts c7Tok (fun r => r) 7 c7StoreB c7Mid
    [c7Entry1] c7Entry2 [] .storageError (by decide) (by decide) (by decide)

/-! ## C5: full rebuild equals a single fresh pass -/

theorem find?_id_self (l : List JournalEntry)
    (hnd : (l.map (fun x => x.id)).Nodup) (e : JournalEntry) (he : e ∈ l) :
    l.find? (fun x => x.id == e.id) = some e := by
  induction l with
  | nil => cases he
  | cons x xs ih =>
    rw [List.find?_cons]
    rw [List.map_cons, List.nodup_cons] at hnd
    by_cases hp : (x.id == e.id) = true
    · have hxe : x = e := by
        rcases List.mem_cons.mp he with rfl | ht
        · rfl
        · exact absurd (beq_iff_eq.mp hp ▸ List.mem_map_of_mem (fun y => y.id) ht)
            hnd.1
      subst hxe
      simp
    · simp only [hp]
      rcases List.mem_cons.mp he with rfl | ht
      · exact absurd (beq_self_eq_true e.id) hp
      · exact ih hnd.2 ht

theorem getEntry_self (es : EntryStore)
    (hnd : (es.entries.map (fun x => x.id)).Nodup) (e : JournalEntry)
    (he : e ∈ es.entries) : getEntry e.id es = some e :=
  find?_id_self es.entries hnd e he

theorem foldl_deleteWord_all :
    ∀ (L : List TrackedWord) (ws : WordStore),
      (∀ w ∈ ws.words, w.id ∈ L.map (fun x => x.id)) →
      L.foldl (fun acc w => deleteWord w.id acc) ws = { ws with words := [] } := by
  intro L
  induction L with
  | nil =>
    intro ws h
    have hw : ws.words = [] := by
      rw [List.eq_nil_iff_forall_not_mem]
      intro w hwmem
      simpa using h w hwmem
    rw [List.foldl_nil]
    cases ws
    simp_all
  | cons w L ih =>
    intro ws h
    rw [List.foldl_cons]
    have hstep :
        (deleteWord w.id ws).words
          = ws.words.filter fun x => !(x.id == w.id) := rfl
    have hcover : ∀ x ∈ (deleteWord w.id ws).words, x.id ∈ L.map fun y => y.id := by
      intro x hx
      rw [hstep, List.mem_filter] at hx
      have hne : ¬ x.id = w.id := by
        intro hxe
        rw [hxe] at hx
        simp at hx
      rcases List.mem_cons.mp (h x hx.1) with heq | ht
      · exact absurd heq hne
      · exact ht
    rw [ih (deleteWord w.id ws) hcover]
    rfl

theorem mem_getAllWords (ws : WordStore) (w : TrackedWord) (h : w ∈ ws.words) :
    w ∈ getAllWords ws :=
  (List.perm_insertionSort _ ws.words).mem_iff.mpr h

theorem clearAllWords_eq (ws : WordStore) :
    clearAllWords ws = { ws with words := [] } := by
  apply foldl_deleteWord_all
  intro w hw
  exact List.mem_map_of_mem (fun x => x.id) (mem_getAllWords ws w hw)

theorem forceGo_ok_spec (tok : String → List MecabToken)
    (fur : String → String) (now : Nat) :
    ∀ (l : List JournalEntry) (s sf : Store),
      forceGo tok fur now l s = .ok sf →
      (l.map (fun e => e.id)).Nodup →
      (∀ e ∈ l, ∃ a, getEntry e.id s.entryStore = some a
        ∧ a.content = e.content) →
      sf.wordStore = l.foldl
          (fun acc e => (extractAndTrackWords tok fur now e.id e.content acc).1)
          s.wordStore
        ∧ sf.entryStore.entries.map (fun e => e.id)
            = s.entryStore.entries.map (fun e => e.id)
        ∧ (∀ x ∈ sf.entryStore.entries,
            x.id ∈ l.map (fun e => e.id) → x.analyzed = true)
        ∧ (∀ x ∈ sf.entryStore.entries,
            x.id ∉ l.map (fun e => e.id) → x ∈ s.entryStore.entries) := by
  intro l
  induction l with
  | nil =>
    intro s sf hok _ _
    simp only [forceGo] at hok
    injection hok with hok
    subst hok
    refine ⟨rfl, rfl, ?_, ?_⟩
    · intro x _ hx
      simp at hx
    · intro x hx _
      exact hx
  | cons e rest ih =>
    intro s sf hok hnd hcov
    simp only [forceGo] at hok
    cases hm1 : markEntryAsUnanalyzed now e.id s.entryStore with
    | error err =>
      rw [hm1] at hok
      exact Except.noConfusion hok
    | ok es2 =>
      simp only [hm1] at hok
      obtain ⟨a, hga, haid, hfa, hes2⟩ :=
        markEntryAsUnanalyzed_ok_elim now e.id s.entryStore es2 hm1
      obtain ⟨a2, hga2, hac⟩ := hcov e (List.mem_cons_self e rest)
      rw [hga] at hga2
      injection hga2 with ha2
      subst ha2
      have hbid : ({ a with analyzed := false, updatedAt := now } :
          JournalEntry).id = e.id := haid
      have hgb : getEntry e.id es2
          = some ({ a with analyzed := false, updatedAt := now }) := by
        rw [hes2]
        exact entries_find?_replace_self s.entryStore.entries e.id
          { a with analyzed := false, updatedAt := now } a hbid hga
      cases hm2 : analyzeEntry tok fur now e.id true
          { s with entryStore := es2 } with
      | error err =>
        simp only [hm2] at hok
        exact Except.noConfusion hok
      | ok s3 =>
        simp only [hm2] at hok
        unfold analyzeEntry at hm2
        simp only [hgb] at hm2
        rw [if_neg (by simp)] at hm2
        cases hm3 : markEntryAsAnalyzed now e.id es2 with
        | error err =>
          simp only [hm3] at hm2
          exact Except.noConfusion hm2
        | ok es3 =>
          simp only [hm3] at hm2
          injection hm2 with hm2
          obtain ⟨c0, hgc, hc0id, hfc, hes3⟩ :=
            markEntryAsAnalyzed_ok_elim now e.id es2 es3 hm3
          rw [hgb] at hgc
          injection hgc with hbc
          subst hbc
          rw [List.map_cons, List.nodup_cons] at hnd
          have hcid : ({ { a with analyzed := false, updatedAt := now } with
              analyzed := true, updatedAt := now } : JournalEntry).id = e.id :=
            haid
          have hcovrest : ∀ e2 ∈ rest, ∃ a2,
              getEntry e2.id s3.entryStore = some a2
              ∧ a2.content = e2.content := by
            intro e2 he2
            obtain ⟨a2, hga2, hac2⟩ := hcov e2 (List.mem_cons_of_mem _ he2)
            have hne : ¬ e2.id = e.id := fun hh =>
              hnd.1 (hh ▸ List.mem_map_of_mem (fun x => x.id) he2)
            refine ⟨a2, ?_, hac2⟩
            rw [← hm2]
            show getEntry e2.id es3 = some a2
            rw [hes3]
            have h1 : getEntry e2.id
                { es2 with entries := es2.entries.map fun x =>
                    if x.id == e.id then
                      { { a with analyzed := false, updatedAt := now } with
                        analyzed := true, updatedAt := now }
                    else x }
                = getEntry e2.id es2 :=
              entries_find?_replace_ne es2.entries e2.id e.id _ hcid hne
            rw [h1, hes2]
            have h2 : getEntry e2.id
                { s.entryStore with entries := s.entryStore.entries.map fun x =>
                    if x.id == e.id then
                      { a with analyzed := false, updatedAt := now }
                    else x }
                = getEntry e2.id s.entryStore :=
              entries_find?_replace_ne s.entryStore.entries e2.id e.id _ hbid hne
            rw [h2]
            exact hga2
          obtain ⟨ihw, ihids, ihan, ihmem⟩ := ih s3 sf hok hnd.2 hcovrest
          have hws3 : s3.wordStore =
              (extractAndTrackWords tok fur now e.id e.content s.wordStore).1 := by
            rw [← hm2]
            show (extractAndTrackWords tok fur now e.id
              ({ a with analyzed := false, updatedAt := now } :
                JournalEntry).content s.wordStore).1 = _
            rw [show ({ a with analyzed := false, updatedAt := now } :
              JournalEntry).content = e.content from hac]
          have hids3 : s3.entryStore.entries.map (fun x => x.id)
              = s.entryStore.entries.map (fun x => x.id) := by
            rw [← hm2]
            show es3.entries.map (fun x => x.id) = _
            rw [hes3]
            rw [entries_ids_map_replace es2.entries e.id _ hcid]
            rw [hes2]
            exact entries_ids_map_replace s.entryStore.entries e.id _ hbid
          refine ⟨?_, ?_, ?_, ?_⟩
          · rw [ihw, List.foldl_cons, hws3]
          · rw [ihids, hids3]
          · intro x hx hxin
            rw [List.map_cons] at hxin
            rcases List.mem_cons.mp hxin with hxe | hxrest
            · have hxnotrest : x.id ∉ rest.map (fun y => y.id) := by
                rw [hxe]
                exact hnd.1
              have hx3 : x ∈ s3.entryStore.entries := ihmem x hx hxnotrest
              have hx3' : x ∈ es3.entries := by
                rw [← hm2] at hx3
                exact hx3
              rw [hes3] at hx3'
              have hxc := entries_mem_replace_of_id_eq es2.entries e.id
                { { a with analyzed := false, updatedAt := now } with
                  analyzed := true, updatedAt := now } x hcid hx3' hxe
              rw [hxc]
            · exact ihan x hx hxrest
          · intro x hx hxout
            rw [List.map_cons] at hxout
            have hxne : ¬ x.id = e.id := fun hh => hxout (hh ▸ List.mem_cons_self _ _)
            have hxnotrest : x.id ∉ rest.map (fun y => y.id) := fun hh =>
              hxout (List.mem_cons_of_mem _ hh)
            have hx3 : x ∈ s3.entryStore.entries := ihmem x hx hxnotrest
            have hx3' : x ∈ es3.entries := by
              rw [← hm2] at hx3
              exact hx3
            rw [hes3] at hx3'
            have hx2 := entries_mem_replace_of_id_ne es2.entries e.id
              { { a with analyzed := false, updatedAt := now } with
                analyzed := true, updatedAt := now } x hcid hx3' hxne
            rw [hes2] at hx2
            exact entries_mem_replace_of_id_ne s.entryStore.entries e.id
              { a with analyzed := false, updatedAt := now } x hbid hx2 hxne

/-- C5: `forceReanalyzeAll` wipes every TrackedWord, then marks every entry
unanalyzed and re-analyzes it with `force = true`; on success every entry
with non-empty content is analyzed (in fact every entry is), and the
resulting vocabulary store is exactly what a single fresh pass over all
entries produces from an empty word table — no leftover words survive the
wipe. -/
theorem forceReanalyzeAll_spec (tok : String → List MecabToken)
    (fur : String → String) (now : Nat) (s sf : Store)
    (hok : forceReanalyzeAll tok fur now s = .ok sf)
    (hnd : (s.entryStore.entries.map (fun e => e.id)).Nodup) :
    (∀ e ∈ sf.entryStore.entries, e.content ≠ "" → e.analyzed = true)
    ∧ sf.wordStore = freshPassWordStore tok fur now
        (getAllEntries s.entryStore) s.wordStore := by
  unfold forceReanalyzeAll at hok
  simp only [clearAllWords_eq] at hok
  have hperm : List.Perm (getAllEntries s.entryStore) s.entryStore.entries :=
    List.perm_insertionSort _ _
  have hndl : ((getAllEntries s.entryStore).map (fun e => e.id)).Nodup :=
    ((hperm.map (fun e => e.id)).nodup_iff).mpr hnd
  have hcov : ∀ e ∈ getAllEntries s.entryStore, ∃ a,
      getEntry e.id ({ s with wordStore :=
        { s.wordStore with words := [] } } : Store).entryStore = some a
      ∧ a.content = e.content := by
    intro e he
    exact ⟨e, getEntry_self s.entryStore hnd e (hperm.mem_iff.mp he), rfl⟩
  obtain ⟨hw, hids, han, hmem⟩ := forceGo_ok_spec tok fur now
    (getAllEntries s.entryStore)
    { s with wordStore := { s.wordStore with words := [] } } sf hok hndl hcov
  constructor
  · intro e he _
    apply han e he
    have h1 : e.id ∈ sf.entryStore.entries.map (fun x => x.id) :=
      List.mem_map_of_mem (fun x => x.id) he
    rw [hids] at h1
    exact ((hperm.map (fun x => x.id)).mem_iff).mpr h1
  · rw [hw]
    rfl

/-- Tokenizer oracle for the C5 witness. -/
def c5Tok : String → List MecabToken := fun _ => [tokenInu]

/-- A one-entry store with a stale word that the rebuild must wipe. -/
def c5Store : Store :=
  { entryStore := { entries := [c7Entry1], failPuts := [] },
    wordStore :=
      { words := [{ id := "stale", word := "古", reading := "ふる",
                    frequency := 7, firstSeen := 0, lastUsed := 0,
                    entryIds := ["gone"] }],
        nextId := 3, failWords := [] } }

/-- The store that the C5 concrete rebuild produces. -/
def c5Result : Store :=
  match forceReanalyzeAll c5Tok (fun r => r) 9 c5Store with
  | .ok s => s
  | .error _ => emptyStore

/-- Witness for C5 at the concrete store. -/
theorem forceReanalyzeAll_spec_witness :
    (∀ e ∈ c5Result.entryStore.entries, e.content ≠ "" → e.analyzed = true)
    ∧ c5Result.wordStore = freshPassWordStore c5Tok (fun r => r) 9
        (getAllEntries c5Store.entryStore) c5Store.wordStore :=
  forceReanalyzeAll_spec c5Tok (fun r => r) 9 c5Store c5Result (by decide)
    (by decide)
